import Mathlib

/-!
# RammyMap: a 20-bucket separate-chaining hash map from `char` to `std::string`

Shallow embedding of `src/RammyMap.cpp`.

* A `char` key is represented by the integer `static_cast<int>(key)`.
* A bucket chain (a null-terminated singly linked list of `Node`s reached
  from the head pointer `buckets[i]`) is the list of its nodes, head first.
* The bucket array `Node** buckets = new Node*[TABLE_SIZE]()` is a function
  from the 20 valid indices to chains.
* `buckets[hash_index]` with `hash_index` outside `0..19` reads outside the
  array; the operations return `none` there.
* Every operation returns the text it writes to `std::cout` next to its
  result.
-/

namespace RammyMap

/-! ## Data model -/

/-- Source: `const int TABLE_SIZE = 20;`. -/
def TABLE_SIZE : Int := 20

/-- The values `static_cast<int>(key)` takes over all `char` keys: `-128..127`
where `char` is a signed type (x86, x86-64), `0..255` where it is unsigned. -/
def isCharCode (signedChar : Bool) (c : Int) : Prop :=
  if signedChar then -128 ≤ c ∧ c ≤ 127 else 0 ≤ c ∧ c ≤ 255

instance (signedChar : Bool) (c : Int) : Decidable (isCharCode signedChar c) := by
  unfold isCharCode; exact inferInstance

/-- Source: `return static_cast<int>(key) % TABLE_SIZE;`.  The C++ `%` on `int`
truncates toward zero, so its result has the sign of the dividend. -/
def hash_function (key : Int) : Int := Int.tmod key TABLE_SIZE

/-- Source: `class Node`, fields `key` and `val`; the `next` pointer is the
tail of the list the node sits in. -/
structure Node where
  /-- The `char key` field, as its numeric code. -/
  key : Int
  /-- The `std::string val` field. -/
  val : String
deriving DecidableEq, Repr

/-- Source: `Node::setVal`. -/
def Node.setVal (n : Node) (val : String) : Node := ⟨n.key, val⟩

/-- A bucket chain, head node first. -/
abbrev Chain := List Node

/-- Source: `class HashMap`, whose only field is the array of 20 chain heads. -/
structure HashMap where
  /-- The chain hanging off each slot of the bucket array. -/
  buckets : Fin 20 → Chain

/-- Source: constructor `HashMap()`: `new Node*[TABLE_SIZE]()` value-initialises
every head pointer to null. -/
def HashMap.empty : HashMap := ⟨fun _ => []⟩

/-- The slot `buckets[hash_index]` designates, when `hash_index` lies inside the
array of `TABLE_SIZE` heads; `none` for an access outside the array. -/
def bucketIndex (hash_index : Int) : Option (Fin 20) :=
  if h : 0 ≤ hash_index ∧ hash_index < TABLE_SIZE then
    some ⟨hash_index.toNat, by unfold TABLE_SIZE at h; omega⟩
  else none

/-! ## Status texts written to `std::cout` -/

/-- Text printed by `insert` when a new node is linked in. -/
def msgInserted : String := "Insertion successful.\n"

/-- Text printed by `insert` when an existing node is overwritten. -/
def msgUpdated : String := "Key already exists. Value updated.\n"

/-- Text printed by `get` on the not-found branch. -/
def msgGetNotFound : String := "Item not found. Returning empty string."

/-- Text printed by `remove` on the not-found branch. -/
def msgRemoveNotFound : String := "Item not found. No deletion occurred.\n"

/-- Text printed by `remove` after unlinking a node. -/
def msgRemoved : String := "Deletion successful.\n"

/-! ## The three chain walks -/

/-- The walk of `insert` over one chain (source lines 92-114): advance while the
current node exists and has another key; at the end of the chain link a new
node after the last one (or as head of an empty chain), at a node with the
same key overwrite its value.  Returns the chain and the printed text. -/
def insertChain (key : Int) (val : String) : Chain → Chain × String
  | [] => ([⟨key, val⟩], msgInserted)
  | cur :: rest =>
    if cur.key ≠ key then
      (cur :: (insertChain key val rest).1, (insertChain key val rest).2)
    else
      (cur.setVal val :: rest, msgUpdated)

/-- Outcome of `get`: the text written to `std::cout` and the returned string. -/
structure GetResult where
  /-- Text written to `std::cout`. -/
  out : String
  /-- The `std::string` handed back to the caller. -/
  ret : String
deriving DecidableEq, Repr

/-- The walk of `get` over one chain (source lines 123-135): return the value of
the first node with the key; at the end of the chain print the notice and
return the empty string. -/
def getChain (key : Int) : Chain → GetResult
  | [] => ⟨msgGetNotFound, ""⟩
  | cur :: rest => if cur.key = key then ⟨"", cur.val⟩ else getChain key rest

/-- The walk of `remove` over one chain (source lines 146-169): advance while the
current node exists and has another key; at the end of the chain change
nothing, at a node with the key unlink it. -/
def removeChain (key : Int) : Chain → Chain × String
  | [] => ([], msgRemoveNotFound)
  | kod :: rest =>
    if kod.key ≠ key then
      (kod :: (removeChain key rest).1, (removeChain key rest).2)
    else
      (rest, msgRemoved)

/-! ## The three operations -/

/-- Source: `HashMap::insert`.  Result: the new table and the printed text. -/
def HashMap.insert (m : HashMap) (key : Int) (val : String) : Option (HashMap × String) :=
  match bucketIndex (hash_function key) with
  | none => none
  | some i =>
    some (⟨Function.update m.buckets i (insertChain key val (m.buckets i)).1⟩,
          (insertChain key val (m.buckets i)).2)

/-- Source: `HashMap::get` (a `const` method: the table is not changed). -/
def HashMap.get (m : HashMap) (key : Int) : Option GetResult :=
  match bucketIndex (hash_function key) with
  | none => none
  | some i => some (getChain key (m.buckets i))

/-- Source: `HashMap::remove`.  Result: the new table and the printed text. -/
def HashMap.remove (m : HashMap) (key : Int) : Option (HashMap × String) :=
  match bucketIndex (hash_function key) with
  | none => none
  | some i =>
    some (⟨Function.update m.buckets i (removeChain key (m.buckets i)).1⟩,
          (removeChain key (m.buckets i)).2)

/-! ## Whole-table views and call sequences -/

/-- All entries of the table: the 20 chains one after the other. -/
def HashMap.entries (m : HashMap) : List Node := (List.ofFn m.buckets).flatten

/-- A key is present when some entry of the table carries it. -/
def HashMap.present (m : HashMap) (key : Int) : Prop := ∃ n ∈ m.entries, n.key = key

/-- Number of entries of the whole table that carry the key. -/
def HashMap.countKey (m : HashMap) (key : Int) : Nat :=
  (m.entries.map Node.key).count key

/-- The keys along a chain, head first. -/
def keys (c : Chain) : List Int := c.map Node.key

/-- Table invariant: along every chain no key occurs twice, and every node of
the chain at slot `i` has a key whose hash designates slot `i`. -/
def Inv (m : HashMap) : Prop :=
  ∀ i : Fin 20, (keys (m.buckets i)).Nodup ∧
    ∀ n ∈ m.buckets i, bucketIndex (hash_function n.key) = some i

/-- A mutating call on the map. -/
inductive Op where
  | insert (key : Int) (val : String)
  | remove (key : Int)
deriving DecidableEq, Repr

/-- The key a mutating call is made with. -/
def Op.key : Op → Int
  | .insert key _ => key
  | .remove key => key

/-- One mutating call; the printed text is dropped. -/
def HashMap.step (m : HashMap) : Op → Option HashMap
  | .insert key val => (m.insert key val).map Prod.fst
  | .remove key => (m.remove key).map Prod.fst

/-- A sequence of mutating calls, first call first. -/
def HashMap.run (m : HashMap) : List Op → Option HashMap
  | [] => some m
  | op :: ops => (m.step op).bind (fun m1 => m1.run ops)

/-- A map state is reachable when some finite sequence of `insert` and `remove`
calls on the newly constructed map ends in it. -/
def Reachable (m : HashMap) : Prop := ∃ ops : List Op, HashMap.empty.run ops = some m

/-- The eight `insert` calls at the start of `main`. -/
def mainOps : List Op :=
  [.insert 82 "Rom", .insert 76 "Lenny", .insert 82 "Rammy overwrote Rom",
   .insert 114 "Case-sensitive!", .insert 68 "The derivative of the integral.",
   .insert 88 "This should cause a hash collision with D.",
   .insert 88 "But we may never know for sure. ;)", .insert 71 "Gaby"]

/-- The table `main` has built when it enters its command loop. -/
def mainMap : HashMap := (HashMap.empty.run mainOps).getD HashMap.empty

/-- The table after `insert('A', "")` on a newly constructed map. -/
def emptyValueMap : HashMap :=
  ((HashMap.empty.insert 65 "").map Prod.fst).getD HashMap.empty

/-! ## Teardown, at the level of node addresses

The destructor is about releasing memory, so it is modelled on the objects the
map owns: the `Node` objects by address with their `next` pointers, and the
array of head pointers. -/

/-- A `Node` object in memory: its two fields and its `next` pointer, `none`
for `nullptr`. -/
structure Cell where
  /-- The `char key` field, as its numeric code. -/
  key : Int
  /-- The `std::string val` field. -/
  val : String
  /-- The `Node* next` field. -/
  next : Option Nat
deriving DecidableEq, Repr

/-- The memory a map owns: the live `Node` objects by address, and the array of
head pointers, `none` once `delete[] buckets` has run. -/
structure Store where
  /-- The live `Node` object at each address, if any. -/
  nodes : Nat → Option Cell
  /-- The bucket array `buckets`, if it is still allocated. -/
  heads : Option (Fin 20 → Option Nat)

/-- A release performed by the destructor `~HashMap()`. -/
inductive Freed where
  /-- The statement `delete prev;` on the node at the address. -/
  | node (addr : Nat)
  /-- The statement `delete[] buckets;`. -/
  | bucketArray
deriving DecidableEq, Repr

/-- The inner loop of the destructor (source lines 69-74) from the pointer `cur`:
while `cur` is not null, remember it as `prev`, read `cur->getNext()`, then
`delete prev`.  Reading the successor of an address that holds no live node
fails; so does running out of `fuel`.  Result: the live nodes left and the
addresses deleted, in order. -/
def freeChain : Nat → (Nat → Option Cell) → Option Nat →
    Option ((Nat → Option Cell) × List Nat)
  | _, nodes, none => some (nodes, [])
  | 0, _, some _ => none
  | fuel + 1, nodes, some prev =>
    match nodes prev with
    | none => none
    | some c =>
      match freeChain fuel (Function.update nodes prev none) c.next with
      | none => none
      | some r => some (r.1, prev :: r.2)

/-- The outer loop of the destructor (source lines 65-76) over the indices still
to visit: clear the chain hanging off `buckets[i]`, then `buckets[i] = nullptr`. -/
def destroyFrom (fuel : Nat) : (Nat → Option Cell) → (Fin 20 → Option Nat) →
    List (Fin 20) → Option ((Nat → Option Cell) × (Fin 20 → Option Nat) × List Freed)
  | nodes, heads, [] => some (nodes, heads, [])
  | nodes, heads, i :: rest =>
    match freeChain fuel nodes (heads i) with
    | none => none
    | some r =>
      match destroyFrom fuel r.1 (Function.update heads i none) rest with
      | none => none
      | some r2 => some (r2.1, r2.2.1, r.2.map Freed.node ++ r2.2.2)

/-- Source: destructor `~HashMap()`: the loop over `i = 0 .. TABLE_SIZE - 1`
followed by `delete[] buckets`.  Result: the memory left and all releases in
the order they are made. -/
def Store.destroy (fuel : Nat) (s : Store) : Option (Store × List Freed) :=
  match s.heads with
  | none => none
  | some heads =>
    match destroyFrom fuel s.nodes heads (List.finRange 20) with
    | none => none
    | some r => some (⟨r.1, none⟩, r.2.2 ++ [Freed.bucketArray])

/-- The chain `c` is laid out at the addresses `addrs`, node by node: each address
holds a live node with the fields of the corresponding entry, whose `next`
pointer is the address of the following entry, null at the last one. -/
def ChainAt (nodes : Nat → Option Cell) : Chain → List Nat → Prop
  | [], [] => True
  | n :: rest, a :: more =>
    nodes a = some ⟨n.key, n.val, more.head?⟩ ∧ ChainAt nodes rest more
  | [], _ :: _ => False
  | _ :: _, [] => False

instance ChainAt.instDecidable (nodes : Nat → Option Cell) :
    (c : Chain) → (addrs : List Nat) → Decidable (ChainAt nodes c addrs)
  | [], [] => isTrue trivial
  | n :: rest, a :: more =>
    match decEq (nodes a) (some ⟨n.key, n.val, more.head?⟩),
      ChainAt.instDecidable nodes rest more with
    | isTrue h1, isTrue h2 => isTrue ⟨h1, h2⟩
    | isFalse h1, _ => isFalse (fun h => h1 h.1)
    | _, isFalse h2 => isFalse (fun h => h2 h.2)
  | [], _ :: _ => isFalse (fun h => h)
  | _ :: _, [] => isFalse (fun h => h)

/-- All node addresses of a layout, slot 0 first. -/
def allAddrs (addrs : Fin 20 → List Nat) : List Nat := (List.ofFn addrs).flatten

/-- The memory `s` holds the table `m` with the chain of slot `i` laid out at the
addresses `addrs i`: the bucket array is allocated and each head pointer is
the first address of its chain (null for an empty chain), no address is used
twice, and no other node is live. -/
def Represents (s : Store) (m : HashMap) (addrs : Fin 20 → List Nat) : Prop :=
  (∃ heads, s.heads = some heads ∧ ∀ i, heads i = (addrs i).head?) ∧
  (∀ i, ChainAt s.nodes (m.buckets i) (addrs i)) ∧
  (allAddrs addrs).Nodup ∧
  ∀ a, a ∉ allAddrs addrs → s.nodes a = none

/-- The memory right after the constructor `HashMap()`: no node, and the bucket
array allocated with every head pointer null. -/
def Store.init : Store := ⟨fun _ => none, some (fun _ => none)⟩

/-- The slot an address of the standard layout belongs to. -/
def slotOf (a : Nat) : Fin 20 := ⟨a % 20, Nat.mod_lt a (by decide)⟩

/-- A standard layout of a table in memory: the node at position `p` of the chain
of slot `i` lives at address `20 * p + i`. -/
def layoutAddrs (m : HashMap) : Fin 20 → List Nat := fun i =>
  (List.range' 0 (m.buckets i).length).map (fun p => 20 * p + (i : Nat))

/-- The nodes of the standard layout: address `a` holds entry number `a / 20` of
the chain of slot `a % 20`, if the chain is that long, linked to address
`a + 20` unless it is the last one. -/
def layoutNodes (m : HashMap) : Nat → Option Cell := fun a =>
  match (m.buckets (slotOf a))[a / 20]? with
  | none => none
  | some n =>
    some ⟨n.key, n.val,
      if a / 20 + 1 < (m.buckets (slotOf a)).length then some (a + 20) else none⟩

/-- The memory holding a table in the standard layout. -/
def layoutStore (m : HashMap) : Store :=
  ⟨layoutNodes m, some (fun i => (layoutAddrs m i).head?)⟩

/-- A memory holding the table built by `main`: the six nodes at the addresses
1 to 6, in the order `main` allocates them. -/
def mainStore : Store where
  nodes := fun a =>
    if a = 1 then some ⟨82, "Rammy overwrote Rom", none⟩
    else if a = 2 then some ⟨76, "Lenny", none⟩
    else if a = 3 then some ⟨114, "Case-sensitive!", none⟩
    else if a = 4 then some ⟨68, "The derivative of the integral.", some 5⟩
    else if a = 5 then some ⟨88, "But we may never know for sure. ;)", none⟩
    else if a = 6 then some ⟨71, "Gaby", none⟩
    else none
  heads := some (fun i =>
    if i = 2 then some 1 else if i = 16 then some 2 else if i = 14 then some 3
    else if i = 8 then some 4 else if i = 11 then some 6 else none)

/-- The addresses of the chains in `mainStore`. -/
def mainAddrs : Fin 20 → List Nat := fun i =>
  if i = 2 then [1] else if i = 16 then [2] else if i = 14 then [3]
  else if i = 8 then [4, 5] else if i = 11 then [6] else []

/-! ## The abstract finite map -/

/-- A map from character codes to strings in which a code may have no binding. -/
abbrev AbsMap := Int → Option String

/-- The abstract map without any binding. -/
def absEmpty : AbsMap := fun _ => none

/-- Abstract counterpart of one call: `insert` is point update, `remove` is
point erase. -/
def absStep (a : AbsMap) : Op → AbsMap
  | .insert key val => Function.update a key (some val)
  | .remove key => Function.update a key none

/-- The abstract map replayed over a sequence of calls, first call first. -/
def absRun (a : AbsMap) : List Op → AbsMap
  | [] => a
  | op :: ops => absRun (absStep a op) ops

/-- What `get` reports for an abstract lookup: the value without any notice when
there is a binding, the not-found notice and the empty string when there is
none. -/
def getResultOf : Option String → GetResult
  | some v => ⟨"", v⟩
  | none => ⟨msgGetNotFound, ""⟩

/-! ## Hashing -/

theorem hash_function_of_nonneg (key : Int) (h : 0 ≤ key) :
    0 ≤ hash_function key ∧ hash_function key < 20 ∧ hash_function key = key % 20 := by
  unfold hash_function TABLE_SIZE
  have h1 : Int.tmod key 20 = key % 20 := Int.tmod_eq_emod h (by norm_num)
  rw [h1]
  omega

theorem bucketIndex_isSome_of_nonneg (key : Int) (h : 0 ≤ key) :
    ∃ i : Fin 20, bucketIndex (hash_function key) = some i := by
  obtain ⟨h0, h1, _⟩ := hash_function_of_nonneg key h
  unfold bucketIndex TABLE_SIZE
  rw [dif_pos ⟨h0, h1⟩]
  exact ⟨_, rfl⟩

theorem bucketIndex_eq_some_iff (h : Int) (i : Fin 20) :
    bucketIndex h = some i ↔ h = ((i : Nat) : Int) := by
  unfold bucketIndex TABLE_SIZE
  constructor
  · intro hh
    split at hh
    · rename_i hr
      have := Option.some.inj hh
      have h2 : (i : Nat) = h.toNat := by rw [← this]
      omega
    · exact absurd hh (by simp)
  · intro hh
    have hi := i.isLt
    have hr : 0 ≤ h ∧ h < 20 := by omega
    rw [dif_pos hr]
    congr 1
    apply Fin.ext
    simp only
    omega

/-! ## The chain walks -/

theorem getChain_insertChain_same (key : Int) (val : String) (c : Chain) :
    getChain key (insertChain key val c).1 = ⟨"", val⟩ := by
  induction c with
  | nil => simp [insertChain, getChain]
  | cons cur rest ih =>
    by_cases h : cur.key = key
    · simp [insertChain, getChain, h, Node.setVal]
    · simp [insertChain, getChain, h, ih]

theorem getChain_insertChain_other (key other : Int) (val : String) (c : Chain)
    (h : other ≠ key) : getChain other (insertChain key val c).1 = getChain other c := by
  induction c with
  | nil => simp [insertChain, getChain, Ne.symm h]
  | cons cur rest ih =>
    by_cases hk : cur.key = key
    · have : ¬ key = other := fun e => h e.symm
      simp [insertChain, getChain, hk, Node.setVal, this]
    · by_cases ho : cur.key = other
      · subst ho
        simp [insertChain, getChain, hk]
      · simp [insertChain, getChain, hk, ho, ih]

theorem insertChain_idem (key : Int) (val : String) (c : Chain) :
    (insertChain key val (insertChain key val c).1).1 = (insertChain key val c).1 := by
  induction c with
  | nil => simp [insertChain, Node.setVal]
  | cons cur rest ih =>
    by_cases h : cur.key = key
    · simp [insertChain, h, Node.setVal]
    · simp [insertChain, h, ih]

theorem removeChain_of_absent (key : Int) (c : Chain) (h : key ∉ keys c) :
    removeChain key c = (c, msgRemoveNotFound) := by
  induction c with
  | nil => simp [removeChain]
  | cons cur rest ih =>
    have h1 : cur.key ≠ key := fun e => h (by simp [keys, e])
    have h2 : key ∉ keys rest := fun e => h (by simp [keys] at e ⊢; exact Or.inr e)
    simp [removeChain, h1, ih h2]

theorem removeChain_of_present (key : Int) (c : Chain) (h : key ∈ keys c) :
    (removeChain key c).2 = msgRemoved := by
  induction c with
  | nil => simp [keys] at h
  | cons cur rest ih =>
    by_cases h1 : cur.key = key
    · simp [removeChain, h1]
    · have h2 : key ∈ keys rest := by
        simp only [keys, List.map_cons, List.mem_cons] at h ⊢
        rcases h with h | h
        · exact absurd h.symm h1
        · exact h
      simp [removeChain, h1, ih h2]

theorem removeChain_sublist (key : Int) (c : Chain) : List.Sublist (removeChain key c).1 c := by
  induction c with
  | nil => simp [removeChain]
  | cons cur rest ih =>
    by_cases h1 : cur.key = key
    · simp [removeChain, h1]
    · simp [removeChain, h1, ih]

theorem not_mem_keys_removeChain (key : Int) (c : Chain) (h : (keys c).Nodup) :
    key ∉ keys (removeChain key c).1 := by
  induction c with
  | nil => simp [removeChain, keys]
  | cons cur rest ih =>
    simp only [keys, List.map_cons, List.nodup_cons] at h
    by_cases h1 : cur.key = key
    · simp only [removeChain, h1, ne_eq, not_true_eq_false, if_false]
      rw [← h1]; exact h.1
    · have := ih h.2
      simp only [removeChain, h1, ne_eq, not_false_eq_true, if_true, keys, List.map_cons,
        List.mem_cons, not_or]
      exact ⟨fun e => h1 e.symm, this⟩

theorem keys_insertChain (key : Int) (val : String) (c : Chain) :
    keys (insertChain key val c).1 = if key ∈ keys c then keys c else keys c ++ [key] := by
  induction c with
  | nil => simp [insertChain, keys]
  | cons cur rest ih =>
    by_cases h : cur.key = key
    · simp [insertChain, keys, h, Node.setVal]
    · have h2 : ¬ key = cur.key := fun e => h e.symm
      simp only [keys] at ih
      by_cases hm : key ∈ List.map Node.key rest
      · simp [insertChain, keys, h, h2, ih, hm]
      · simp [insertChain, keys, h, h2, ih, hm]

theorem mem_insertChain (key : Int) (val : String) (c : Chain) (n : Node)
    (h : n ∈ (insertChain key val c).1) : n.key = key ∨ n ∈ c := by
  induction c with
  | nil => simp [insertChain] at h; left; rw [h]
  | cons cur rest ih =>
    by_cases hk : cur.key = key
    · simp only [insertChain, hk, ne_eq, not_true_eq_false, if_false, List.mem_cons] at h
      rcases h with h | h
      · left; rw [h]; simp [Node.setVal, hk]
      · right; simp [h]
    · simp only [insertChain, hk, ne_eq, not_false_eq_true, if_true, List.mem_cons] at h
      rcases h with h | h
      · right; simp [h]
      · rcases ih h with h | h
        · left; exact h
        · right; simp [h]

theorem nodup_keys_insertChain (key : Int) (val : String) (c : Chain) (h : (keys c).Nodup) :
    (keys (insertChain key val c).1).Nodup := by
  rw [keys_insertChain]
  split
  · exact h
  · rename_i hm
    rw [List.nodup_append]
    refine ⟨h, List.nodup_singleton _, ?_⟩
    intro a ha hb
    simp at hb
    exact hm (hb ▸ ha)

theorem getChain_of_absent (key : Int) (c : Chain) (h : key ∉ keys c) :
    getChain key c = ⟨msgGetNotFound, ""⟩ := by
  induction c with
  | nil => simp [getChain]
  | cons cur rest ih =>
    have h1 : cur.key ≠ key := fun e => h (by simp [keys, e])
    have h2 : key ∉ keys rest := fun e => h (by simp [keys] at e ⊢; exact Or.inr e)
    simp [getChain, h1, ih h2]

theorem getChain_of_mem (n : Node) (c : Chain) (h : (keys c).Nodup) (hn : n ∈ c) :
    getChain n.key c = ⟨"", n.val⟩ := by
  induction c with
  | nil => simp at hn
  | cons cur rest ih =>
    simp only [keys, List.map_cons, List.nodup_cons] at h
    rcases List.mem_cons.mp hn with e | e
    · subst e; simp [getChain]
    · have h1 : cur.key ≠ n.key := by
        intro e2
        apply h.1
        rw [e2]
        exact List.mem_map_of_mem Node.key e
      simp [getChain, h1, ih h.2 e]

/-! ## The table: unfolding the operations at a valid slot -/

theorem insert_eq (m : HashMap) (key : Int) (val : String) (i : Fin 20)
    (hi : bucketIndex (hash_function key) = some i) :
    m.insert key val =
      some (⟨Function.update m.buckets i (insertChain key val (m.buckets i)).1⟩,
            (insertChain key val (m.buckets i)).2) := by
  simp [HashMap.insert, hi]

theorem get_eq (m : HashMap) (key : Int) (i : Fin 20)
    (hi : bucketIndex (hash_function key) = some i) :
    m.get key = some (getChain key (m.buckets i)) := by
  simp [HashMap.get, hi]

theorem remove_eq (m : HashMap) (key : Int) (i : Fin 20)
    (hi : bucketIndex (hash_function key) = some i) :
    m.remove key =
      some (⟨Function.update m.buckets i (removeChain key (m.buckets i)).1⟩,
            (removeChain key (m.buckets i)).2) := by
  simp [HashMap.remove, hi]

theorem mem_entries (m : HashMap) (n : Node) : n ∈ m.entries ↔ ∃ i, n ∈ m.buckets i := by
  unfold HashMap.entries
  rw [List.mem_flatten]
  constructor
  · rintro ⟨l, hl, hn⟩
    obtain ⟨i, rfl⟩ := (List.mem_ofFn _ _).mp hl
    exact ⟨i, hn⟩
  · rintro ⟨i, hi⟩
    exact ⟨m.buckets i, (List.mem_ofFn _ _).mpr ⟨i, rfl⟩, hi⟩

theorem present_iff (m : HashMap) (key : Int) :
    m.present key ↔ ∃ i, key ∈ keys (m.buckets i) := by
  unfold HashMap.present keys
  constructor
  · rintro ⟨n, hn, hk⟩
    obtain ⟨i, hi⟩ := (mem_entries m n).mp hn
    exact ⟨i, List.mem_map.mpr ⟨n, hi, hk⟩⟩
  · rintro ⟨i, hi⟩
    obtain ⟨n, hn, hk⟩ := List.mem_map.mp hi
    exact ⟨n, (mem_entries m n).mpr ⟨i, hn⟩, hk⟩

/-! ## The invariant -/

theorem inv_empty : Inv HashMap.empty := by
  intro i
  simp [HashMap.empty, keys]

theorem inv_insert (m m1 : HashMap) (key : Int) (val : String) (s : String)
    (hm : Inv m) (h : m.insert key val = some (m1, s)) : Inv m1 := by
  unfold HashMap.insert at h
  split at h
  · exact absurd h (by simp)
  · rename_i i hi
    simp only [Option.some.injEq, Prod.mk.injEq] at h
    obtain ⟨h1, _⟩ := h
    subst h1
    intro j
    by_cases hj : j = i
    · subst hj
      simp only [Function.update_same]
      refine ⟨nodup_keys_insertChain key val _ (hm j).1, ?_⟩
      intro n hn
      rcases mem_insertChain key val _ n hn with e | e
      · rw [e]; exact hi
      · exact (hm j).2 n e
    · simp only [Function.update_noteq hj]
      exact hm j

theorem inv_remove (m m1 : HashMap) (key : Int) (s : String)
    (hm : Inv m) (h : m.remove key = some (m1, s)) : Inv m1 := by
  unfold HashMap.remove at h
  split at h
  · exact absurd h (by simp)
  · rename_i i hi
    simp only [Option.some.injEq, Prod.mk.injEq] at h
    obtain ⟨h1, _⟩ := h
    subst h1
    intro j
    by_cases hj : j = i
    · subst hj
      simp only [Function.update_same]
      have hs := removeChain_sublist key (m.buckets j)
      refine ⟨List.Nodup.sublist (List.Sublist.map Node.key hs) (hm j).1, ?_⟩
      intro n hn
      exact (hm j).2 n (hs.subset hn)
    · simp only [Function.update_noteq hj]
      exact hm j

theorem inv_step (m m1 : HashMap) (op : Op) (hm : Inv m) (h : m.step op = some m1) :
    Inv m1 := by
  cases op with
  | insert key val =>
    cases hins : m.insert key val with
    | none => simp [HashMap.step, hins] at h
    | some r =>
      simp only [HashMap.step, hins, Option.map_some', Option.some.injEq] at h
      subst h
      exact inv_insert m r.1 key val r.2 hm hins
  | remove key =>
    cases hrem : m.remove key with
    | none => simp [HashMap.step, hrem] at h
    | some r =>
      simp only [HashMap.step, hrem, Option.map_some', Option.some.injEq] at h
      subst h
      exact inv_remove m r.1 key r.2 hm hrem

theorem inv_run (ops : List Op) (m m1 : HashMap) (hm : Inv m) (h : m.run ops = some m1) :
    Inv m1 := by
  induction ops generalizing m with
  | nil =>
    simp only [HashMap.run, Option.some.injEq] at h
    subst h
    exact hm
  | cons op ops ih =>
    simp only [HashMap.run, Option.bind_eq_some] at h
    obtain ⟨m2, h2, h3⟩ := h
    exact ih m2 (inv_step m m2 op hm h2) h3

theorem inv_of_reachable (m : HashMap) (h : Reachable m) : Inv m := by
  obtain ⟨ops, hops⟩ := h
  exact inv_run ops HashMap.empty m inv_empty hops

theorem reachable_step (m m1 : HashMap) (op : Op) (hm : Reachable m)
    (h : m.step op = some m1) : Reachable m1 := by
  obtain ⟨ops, hops⟩ := hm
  refine ⟨ops ++ [op], ?_⟩
  have key : ∀ (l : List Op) (a b : HashMap), a.run l = some b →
      a.run (l ++ [op]) = b.step op := by
    intro l
    induction l with
    | nil =>
      intro a b hab
      simp only [HashMap.run, Option.some.injEq] at hab
      subst hab
      simp only [List.nil_append, HashMap.run]
      cases a.step op <;> simp [HashMap.run]
    | cons o l ih =>
      intro a b hab
      simp only [HashMap.run, Option.bind_eq_some] at hab
      obtain ⟨c, hc, hcb⟩ := hab
      simp only [List.cons_append, HashMap.run, hc, Option.some_bind]
      exact ih c b hcb
  rw [key ops HashMap.empty m hops, h]

/-- Under the invariant a key that is present sits in the chain of the slot its
hash designates, and that slot is a valid one. -/
theorem present_slot (m : HashMap) (key : Int) (hm : Inv m) (hp : m.present key) :
    ∃ i, bucketIndex (hash_function key) = some i ∧ key ∈ keys (m.buckets i) := by
  obtain ⟨i, hi⟩ := (present_iff m key).mp hp
  refine ⟨i, ?_, hi⟩
  obtain ⟨n, hn, hk⟩ := List.mem_map.mp hi
  rw [← hk]
  exact (hm i).2 n hn

theorem nodup_entries_keys (m : HashMap) (hm : Inv m) : (m.entries.map Node.key).Nodup := by
  unfold HashMap.entries
  rw [List.map_flatten, List.map_ofFn, List.nodup_flatten]
  constructor
  · intro l hl
    obtain ⟨i, rfl⟩ := (List.mem_ofFn _ _).mp hl
    exact (hm i).1
  · rw [List.pairwise_ofFn]
    intro i j hij
    intro k hki hkj
    simp only [Function.comp] at hki hkj
    obtain ⟨a, ha, hak⟩ := List.mem_map.mp hki
    obtain ⟨b, hb, hbk⟩ := List.mem_map.mp hkj
    have h1 := (hm i).2 a ha
    have h2 := (hm j).2 b hb
    rw [hak] at h1
    rw [hbk, h1] at h2
    exact absurd (Option.some.inj h2) (ne_of_lt hij)

theorem countKey_le_one (m : HashMap) (key : Int) (hm : Inv m) : m.countKey key ≤ 1 :=
  List.nodup_iff_count_le_one.mp (nodup_entries_keys m hm) key

theorem countKey_pos_of_present (m : HashMap) (key : Int) (hp : m.present key) :
    0 < m.countKey key := by
  obtain ⟨n, hn, hk⟩ := hp
  unfold HashMap.countKey
  rw [List.count_pos_iff]
  exact List.mem_map.mpr ⟨n, hn, hk⟩

/-! ## Behaviour of the operations at keys whose hash is a valid slot -/

theorem insert_succeeds (m : HashMap) (key : Int) (val : String) (i : Fin 20)
    (hi : bucketIndex (hash_function key) = some i) :
    ∃ m1 s, m.insert key val = some (m1, s) :=
  ⟨_, _, insert_eq m key val i hi⟩

theorem slot_of_insert (m m1 : HashMap) (key : Int) (val s : String)
    (h : m.insert key val = some (m1, s)) :
    ∃ i, bucketIndex (hash_function key) = some i ∧
      m1.buckets = Function.update m.buckets i (insertChain key val (m.buckets i)).1 ∧
      s = (insertChain key val (m.buckets i)).2 := by
  unfold HashMap.insert at h
  split at h
  · exact absurd h (by simp)
  · rename_i i hi
    simp only [Option.some.injEq, Prod.mk.injEq] at h
    obtain ⟨h1, h2⟩ := h
    exact ⟨i, hi, by rw [← h1], h2.symm⟩

theorem slot_of_remove (m m1 : HashMap) (key : Int) (s : String)
    (h : m.remove key = some (m1, s)) :
    ∃ i, bucketIndex (hash_function key) = some i ∧
      m1.buckets = Function.update m.buckets i (removeChain key (m.buckets i)).1 ∧
      s = (removeChain key (m.buckets i)).2 := by
  unfold HashMap.remove at h
  split at h
  · exact absurd h (by simp)
  · rename_i i hi
    simp only [Option.some.injEq, Prod.mk.injEq] at h
    obtain ⟨h1, h2⟩ := h
    exact ⟨i, hi, by rw [← h1], h2.symm⟩

/-- After a successful `insert(key, val)`, `get(key)` takes the found branch and
returns `val`. -/
theorem get_insert_same (m m1 : HashMap) (key : Int) (val s : String)
    (h : m.insert key val = some (m1, s)) : m1.get key = some ⟨"", val⟩ := by
  obtain ⟨i, hi, hb, _⟩ := slot_of_insert m m1 key val s h
  rw [get_eq m1 key i hi, hb, Function.update_same, getChain_insertChain_same]

/-- After a successful `insert(key, val)`, `get` of any other key gives what it
gave before. -/
theorem get_insert_other (m m1 : HashMap) (key other : Int) (val s : String)
    (h : m.insert key val = some (m1, s)) (hne : other ≠ key) :
    m1.get other = m.get other := by
  obtain ⟨i, hi, hb, _⟩ := slot_of_insert m m1 key val s h
  unfold HashMap.get
  cases hj : bucketIndex (hash_function other) with
  | none => rfl
  | some j =>
    simp only
    by_cases hji : j = i
    · subst hji
      rw [hb, Function.update_same, getChain_insertChain_other key other val _ hne]
    · rw [hb, Function.update_noteq hji]

/-- A second `insert(key, val)` right after a successful one leaves every chain
as the first one left it. -/
theorem insert_insert_same (m m1 : HashMap) (key : Int) (val s : String)
    (h : m.insert key val = some (m1, s)) :
    m1.insert key val = some (m1, msgUpdated) := by
  obtain ⟨i, hi, hb, _⟩ := slot_of_insert m m1 key val s h
  rw [insert_eq m1 key val i hi]
  have hmem : key ∈ keys (m1.buckets i) := by
    rw [hb, Function.update_same, keys_insertChain]
    split
    · assumption
    · simp
  have hmsg : ∀ c : Chain, key ∈ keys c → (insertChain key val c).2 = msgUpdated := by
    intro c
    induction c with
    | nil => intro hc; simp [keys] at hc
    | cons cur rest ih =>
      intro hc
      by_cases hk : cur.key = key
      · simp [insertChain, hk]
      · have : key ∈ keys rest := by
          simp only [keys, List.map_cons, List.mem_cons] at hc ⊢
          rcases hc with e | e
          · exact absurd e.symm hk
          · exact e
        simp [insertChain, hk, ih this]
  have hchain : (insertChain key val (m1.buckets i)).1 = m1.buckets i := by
    rw [hb, Function.update_same, insertChain_idem]
  rw [hmsg _ hmem, hchain, Function.update_eq_self]

/-- At a key whose hash is a valid slot and that has no entry, `remove` changes
no chain and prints the not-found notice. -/
theorem remove_absent (m : HashMap) (key : Int) (i : Fin 20)
    (hi : bucketIndex (hash_function key) = some i) (ha : ¬ m.present key) :
    m.remove key = some (m, msgRemoveNotFound) := by
  have hk : key ∉ keys (m.buckets i) := fun e => ha ((present_iff m key).mpr ⟨i, e⟩)
  rw [remove_eq m key i hi, removeChain_of_absent key _ hk, Function.update_eq_self]

/-- Every operation returns at a key whose hash is a valid slot. -/
theorem total_of_valid_slot (m : HashMap) (key : Int) (val : String) (i : Fin 20)
    (hi : bucketIndex (hash_function key) = some i) :
    (m.insert key val).isSome ∧ (m.get key).isSome ∧ (m.remove key).isSome := by
  rw [insert_eq m key val i hi, get_eq m key i hi, remove_eq m key i hi]
  simp

theorem bucketIndex_of_hash_nonneg (key : Int) (h : 0 ≤ hash_function key) :
    ∃ i : Fin 20, bucketIndex (hash_function key) = some i := by
  have h1 : hash_function key < 20 := by
    unfold hash_function TABLE_SIZE
    exact Int.tmod_lt_of_pos key (by norm_num)
  unfold bucketIndex TABLE_SIZE
  rw [dif_pos ⟨h, h1⟩]
  exact ⟨_, rfl⟩

theorem reachable_mainMap : Reachable mainMap := ⟨mainOps, rfl⟩

/-- Where `char` is unsigned every key hashes to a valid slot. -/
theorem bucketIndex_of_unsigned_char (key : Int) (h : isCharCode false key) :
    ∃ i : Fin 20, bucketIndex (hash_function key) = some i := by
  simp only [isCharCode, Bool.false_eq_true, if_false] at h
  exact bucketIndex_isSome_of_nonneg key h.1

/-- A sequence of calls whose keys all have a non-negative hash runs to the end. -/
theorem run_succeeds (ops : List Op) (m : HashMap)
    (h : ∀ op ∈ ops, 0 ≤ hash_function op.key) : ∃ m1, m.run ops = some m1 := by
  induction ops generalizing m with
  | nil => exact ⟨m, rfl⟩
  | cons op ops ih =>
    have hop := h op (List.mem_cons_self _ _)
    obtain ⟨i, hi⟩ := bucketIndex_of_hash_nonneg op.key hop
    have hstep : ∃ m2, m.step op = some m2 := by
      cases op with
      | insert key val =>
        simp only [Op.key] at hi
        exact ⟨_, by rw [HashMap.step, insert_eq m key val i hi, Option.map_some']⟩
      | remove key =>
        simp only [Op.key] at hi
        exact ⟨_, by rw [HashMap.step, remove_eq m key i hi, Option.map_some']⟩
    obtain ⟨m2, h2⟩ := hstep
    obtain ⟨m3, h3⟩ := ih m2 (fun o ho => h o (List.mem_cons_of_mem _ ho))
    exact ⟨m3, by simp only [HashMap.run, h2, Option.some_bind, h3]⟩

/-! ## The claims -/

/-- C1 (round trip), evaluated at the key with numeric code -1, the `char` 0xFF
where `char` is signed: its hash is -1, which designates no bucket, so
`insert` followed by `get` yields no value at all. -/
theorem C1_round_trip_negative_key :
    isCharCode true (-1) ∧ hash_function (-1) = -1 ∧ bucketIndex (-1) = none ∧
    (HashMap.empty.insert (-1) "v").bind (fun r => r.1.get (-1)) = none :=
  ⟨by decide, by decide, by decide, rfl⟩

/-- C2 (key uniqueness): after every sequence of `insert` and `remove` calls on
the newly constructed map, every key has at most one entry in the whole table;
and `insert` of a key that is present returns and leaves exactly one entry for
that key. -/
theorem C2_key_uniqueness (ops : List Op) (m : HashMap)
    (h : HashMap.empty.run ops = some m) :
    (∀ key, m.countKey key ≤ 1) ∧
    (∀ key val, m.present key →
      ∃ m1 s, m.insert key val = some (m1, s) ∧ m1.countKey key = 1) := by
  have hm : Inv m := inv_of_reachable m ⟨ops, h⟩
  refine ⟨fun key => countKey_le_one m key hm, ?_⟩
  intro key val hp
  obtain ⟨i, hi, hk⟩ := present_slot m key hm hp
  obtain ⟨m1, s, h1⟩ := insert_succeeds m key val i hi
  refine ⟨m1, s, h1, ?_⟩
  have hm1 : Inv m1 := inv_insert m m1 key val s hm h1
  obtain ⟨j, hj, hb, _⟩ := slot_of_insert m m1 key val s h1
  have hji : j = i := Option.some.inj (hj.symm.trans hi)
  subst hji
  have hp1 : m1.present key := by
    rw [present_iff]
    refine ⟨j, ?_⟩
    rw [hb, Function.update_same, keys_insertChain, if_pos hk]
    exact hk
  have := countKey_le_one m1 key hm1
  have := countKey_pos_of_present m1 key hp1
  omega

theorem C2_key_uniqueness_witness :
    HashMap.empty.run mainOps = some mainMap ∧
    ((∀ key, mainMap.countKey key ≤ 1) ∧
     (∀ key val, mainMap.present key →
       ∃ m1 s, mainMap.insert key val = some (m1, s) ∧ m1.countKey key = 1)) :=
  ⟨rfl, C2_key_uniqueness mainOps mainMap rfl⟩

/-- C3 (removal): on every reachable map, `remove` of a key that is present
returns, prints the deletion notice, and in the resulting table `get` of that
key takes the not-found branch (notice printed, empty string returned) and no
entry carries the key. -/
theorem C3_remove_present (m : HashMap) (key : Int) (hr : Reachable m)
    (hp : m.present key) :
    ∃ m1, m.remove key = some (m1, msgRemoved) ∧
      m1.get key = some ⟨msgGetNotFound, ""⟩ ∧ ¬ m1.present key := by
  have hm : Inv m := inv_of_reachable m hr
  obtain ⟨i, hi, hk⟩ := present_slot m key hm hp
  have hrem := remove_eq m key i hi
  rw [removeChain_of_present key _ hk] at hrem
  refine ⟨_, hrem, ?_, ?_⟩
  · rw [get_eq _ key i hi]
    simp only [Function.update_same]
    rw [getChain_of_absent key _ (not_mem_keys_removeChain key _ (hm i).1)]
  · intro hp1
    have hm1 := inv_remove m _ key _ hm hrem
    obtain ⟨j, hj, hkj⟩ := present_slot _ key hm1 hp1
    have hji : j = i := Option.some.inj (hj.symm.trans hi)
    subst hji
    simp only [Function.update_same] at hkj
    exact not_mem_keys_removeChain key _ (hm j).1 hkj

theorem C3_remove_present_witness :
    Reachable mainMap ∧ mainMap.present 68 ∧
    ∃ m1, mainMap.remove 68 = some (m1, msgRemoved) ∧
      m1.get 68 = some ⟨msgGetNotFound, ""⟩ ∧ ¬ m1.present 68 :=
  ⟨reachable_mainMap,
   (present_iff mainMap 68).mpr ⟨8, by decide⟩,
   C3_remove_present mainMap 68 reachable_mainMap
     ((present_iff mainMap 68).mpr ⟨8, by decide⟩)⟩

/-- C4 (remove of an absent key), evaluated on the table built by `main` at the
key with numeric code -23, the `char` 0xE9 where `char` is signed: the key has
no entry, its hash -3 designates no bucket, and `remove` yields no table. -/
theorem C4_remove_absent_negative_key :
    isCharCode true (-23) ∧ ¬ mainMap.present (-23) ∧ hash_function (-23) = -3 ∧
    mainMap.remove (-23) = none := by
  refine ⟨by decide, ?_, by decide, rfl⟩
  intro hp
  obtain ⟨i, hi, _⟩ := present_slot mainMap (-23) (inv_of_reachable _ reachable_mainMap) hp
  have : bucketIndex (hash_function (-23)) = none := by decide
  rw [this] at hi
  exact absurd hi (by simp)

/-- For every map, every two distinct keys whose hash is the same valid slot `i`
and every two values, both `insert` calls return, in either order, and
afterwards `get` finds each key with its own value. -/
theorem insert_collision_valid_slot (m : HashMap) (k1 k2 : Int) (v1 v2 : String) (i : Fin 20)
    (hne : k1 ≠ k2) (h1 : hash_function k1 = ((i : Nat) : Int))
    (h2 : hash_function k2 = ((i : Nat) : Int)) :
    (∃ ma sa mb sb, m.insert k1 v1 = some (ma, sa) ∧ ma.insert k2 v2 = some (mb, sb) ∧
      mb.get k1 = some ⟨"", v1⟩ ∧ mb.get k2 = some ⟨"", v2⟩) ∧
    (∃ ma sa mb sb, m.insert k2 v2 = some (ma, sa) ∧ ma.insert k1 v1 = some (mb, sb) ∧
      mb.get k1 = some ⟨"", v1⟩ ∧ mb.get k2 = some ⟨"", v2⟩) := by
  have hi1 := (bucketIndex_eq_some_iff _ i).mpr h1
  have hi2 := (bucketIndex_eq_some_iff _ i).mpr h2
  constructor
  · obtain ⟨ma, sa, ha⟩ := insert_succeeds m k1 v1 i hi1
    obtain ⟨mb, sb, hb⟩ := insert_succeeds ma k2 v2 i hi2
    refine ⟨ma, sa, mb, sb, ha, hb, ?_, get_insert_same ma mb k2 v2 sb hb⟩
    rw [get_insert_other ma mb k2 k1 v2 sb hb hne]
    exact get_insert_same m ma k1 v1 sa ha
  · obtain ⟨ma, sa, ha⟩ := insert_succeeds m k2 v2 i hi2
    obtain ⟨mb, sb, hb⟩ := insert_succeeds ma k1 v1 i hi1
    refine ⟨ma, sa, mb, sb, ha, hb, get_insert_same ma mb k1 v1 sb hb, ?_⟩
    rw [get_insert_other ma mb k1 k2 v1 sb hb (Ne.symm hne)]
    exact get_insert_same m ma k2 v2 sa ha

/-- C5 (collision handling), evaluated on the table built by `main` at the keys
with numeric codes -1 and -21, the `char`s 0xFF and 0xEB where `char` is
signed: the keys are distinct, their codes differ by exactly 20 and both hash
to -1, which designates no bucket, so in either order the first `insert`
already reads outside the bucket array and neither key can be retrieved. -/
theorem C5_collision_negative_hash :
    isCharCode true (-1) ∧ isCharCode true (-21) ∧ (-1 : Int) ≠ -21 ∧
    (-1 : Int) - (-21) = 20 ∧
    hash_function (-1) = -1 ∧ hash_function (-21) = -1 ∧
    bucketIndex (hash_function (-21)) = none ∧
    (mainMap.insert (-1) "a").map Prod.fst = none ∧
    (mainMap.insert (-21) "b").map Prod.fst = none ∧
    (((mainMap.insert (-1) "a").bind (fun r => r.1.insert (-21) "b")).bind
      (fun r => r.1.get (-1))) = none ∧
    (((mainMap.insert (-21) "b").bind (fun r => r.1.insert (-1) "a")).bind
      (fun r => r.1.get (-21))) = none :=
  ⟨by decide, by decide, by decide, by decide, by decide, by decide, by decide,
   rfl, rfl, rfl, rfl⟩

/-- C6 (independence under insert), evaluated on the table built by `main` at
the key with numeric code -61, the `char` 0xC3 where `char` is signed: before
the call `get('R')` finds its value, but `insert` at that key reads outside
the bucket array and yields no table on which `get('R')` could run. -/
theorem C6_insert_negative_key_frame :
    isCharCode true (-61) ∧ (82 : Int) ≠ -61 ∧ hash_function (-61) = -1 ∧
    mainMap.get 82 = some ⟨"", "Rammy overwrote Rom"⟩ ∧
    (mainMap.insert (-61) "v").bind (fun r => r.1.get 82) = none :=
  ⟨by decide, by decide, by decide, by decide, rfl⟩

/-- C7 (idempotence of insert), evaluated on the table built by `main` at the key
with numeric code -128, the `char` 0x80 where `char` is signed: its hash is -8,
and neither one `insert` nor two in a row yield a table. -/
theorem C7_insert_twice_negative_key :
    isCharCode true (-128) ∧ hash_function (-128) = -8 ∧
    (mainMap.insert (-128) "v").map Prod.fst = none ∧
    ((mainMap.insert (-128) "v").bind (fun r => r.1.insert (-128) "v")).map Prod.fst = none :=
  ⟨by decide, by decide, rfl, rfl⟩

/-- C8 (hash range), evaluated at the numeric codes -1 and -128 a signed `char`
can carry: `hash_function` returns -1 and -8, outside `[0, 20)`, whereas the
codes reduced modulo 20 into `[0, 20)` are 19 and 12. -/
theorem C8_hash_of_negative_code :
    isCharCode true (-1) ∧ hash_function (-1) = -1 ∧ (-1 : Int) % 20 = 19 ∧
    isCharCode true (-128) ∧ hash_function (-128) = -8 ∧ (-128 : Int) % 20 = 12 ∧
    ¬ (0 ≤ hash_function (-1) ∧ hash_function (-1) < 20) :=
  ⟨by decide, by decide, by decide, by decide, by decide, by decide, by decide⟩

/-- C9 (totality), evaluated on the table built by `main` at the key with numeric
code -3, the `char` 0xFD where `char` is signed: the computed bucket index -3
is not an index of the 20-slot array, and `insert`, `get` and `remove` all
take the out-of-range access. -/
theorem C9_out_of_range_access :
    isCharCode true (-3) ∧ Reachable mainMap ∧ hash_function (-3) = -3 ∧
    bucketIndex (hash_function (-3)) = none ∧
    (mainMap.insert (-3) "").isSome = false ∧ (mainMap.get (-3)).isSome = false ∧
    (mainMap.remove (-3)).isSome = false :=
  ⟨by decide, reachable_mainMap, by decide, by decide, rfl, rfl, rfl⟩

/-- C10 as stated fails: on the newly constructed map the key 'A' is absent, after
`insert('A', "")` it is present with the empty string, and `get('A')` returns
the same string, the empty one, in both tables. -/
theorem C10_absent_equals_empty_value :
    ¬ HashMap.empty.present 65 ∧
    HashMap.empty.insert 65 "" = some (emptyValueMap, msgInserted) ∧
    (⟨65, ""⟩ : Node) ∈ emptyValueMap.entries ∧
    (HashMap.empty.get 65).map GetResult.ret = some "" ∧
    (emptyValueMap.get 65).map GetResult.ret = some "" ∧
    ¬ ((HashMap.empty.get 65).map GetResult.ret ≠ (emptyValueMap.get 65).map GetResult.ret) := by
  refine ⟨?_, rfl, ?_, by decide, by decide, by decide⟩
  · intro hp
    obtain ⟨i, hi⟩ := (present_iff _ _).mp hp
    simp [HashMap.empty, keys] at hi
  · exact (mem_entries _ _).mpr ⟨5, by decide⟩

/-- C10 as amended: on every reachable map and for every key whose hash is not
negative, `get` returns the empty string both when the key is absent and when
it is present with the empty string as its value; the two outcomes differ only
in the text written to `std::cout`, the not-found notice in the first case and
nothing in the second. -/
theorem C10_get_absent_or_empty_value (m : HashMap) (key : Int) (hr : Reachable m)
    (hk : 0 ≤ hash_function key) :
    (¬ m.present key → m.get key = some ⟨msgGetNotFound, ""⟩) ∧
    ((⟨key, ""⟩ : Node) ∈ m.entries → m.get key = some ⟨"", ""⟩) ∧
    msgGetNotFound ≠ "" := by
  have hm : Inv m := inv_of_reachable m hr
  obtain ⟨i, hi⟩ := bucketIndex_of_hash_nonneg key hk
  refine ⟨?_, ?_, by decide⟩
  · intro ha
    have hk : key ∉ keys (m.buckets i) := fun e => ha ((present_iff m key).mpr ⟨i, e⟩)
    rw [get_eq m key i hi, getChain_of_absent key _ hk]
  · intro hn
    obtain ⟨j, hj⟩ := (mem_entries m _).mp hn
    have hji : j = i := Option.some.inj (((hm j).2 _ hj).symm.trans hi)
    subst hji
    rw [get_eq m key j hi]
    exact congrArg some (getChain_of_mem ⟨key, ""⟩ _ (hm j).1 hj)

theorem C10_get_absent_or_empty_value_witness :
    Reachable mainMap ∧ 0 ≤ hash_function 90 ∧
    ((¬ mainMap.present 90 → mainMap.get 90 = some ⟨msgGetNotFound, ""⟩) ∧
     ((⟨90, ""⟩ : Node) ∈ mainMap.entries → mainMap.get 90 = some ⟨"", ""⟩) ∧
     msgGetNotFound ≠ "") :=
  ⟨reachable_mainMap, by decide,
   C10_get_absent_or_empty_value mainMap 90 reachable_mainMap (by decide)⟩

/-! ## More on the chain walks -/

theorem insertChain_status (key : Int) (val : String) (c : Chain) :
    (insertChain key val c).2 = if key ∈ keys c then msgUpdated else msgInserted := by
  induction c with
  | nil => simp [insertChain, keys]
  | cons cur rest ih =>
    by_cases hk : cur.key = key
    · simp [insertChain, keys, hk]
    · have h2 : ¬ key = cur.key := fun e => hk e.symm
      simp only [keys] at ih
      simp [insertChain, keys, hk, h2, ih]

theorem removeChain_status (key : Int) (c : Chain) :
    (removeChain key c).2 = if key ∈ keys c then msgRemoved else msgRemoveNotFound := by
  by_cases h : key ∈ keys c
  · rw [if_pos h, removeChain_of_present key c h]
  · rw [if_neg h, removeChain_of_absent key c h]

theorem insertChain_of_absent (key : Int) (val : String) (c : Chain) (h : key ∉ keys c) :
    insertChain key val c = (c ++ [⟨key, val⟩], msgInserted) := by
  induction c with
  | nil => simp [insertChain]
  | cons cur rest ih =>
    have h1 : cur.key ≠ key := fun e => h (by simp [keys, e])
    have h2 : key ∉ keys rest := fun e => h (by simp [keys] at e ⊢; exact Or.inr e)
    simp [insertChain, h1, ih h2]

theorem insertChain_of_present (key : Int) (val : String) (c : Chain)
    (hn : (keys c).Nodup) (h : key ∈ keys c) :
    (insertChain key val c).1 = c.map (fun n => if n.key = key then n.setVal val else n) := by
  induction c with
  | nil => simp [keys] at h
  | cons cur rest ih =>
    simp only [keys, List.map_cons, List.nodup_cons] at hn
    by_cases hk : cur.key = key
    · have hrest : ∀ n ∈ rest, n.key ≠ key := by
        intro n hmem e
        apply hn.1
        rw [hk, ← e]
        exact List.mem_map_of_mem Node.key hmem
      have hmap : rest.map (fun n => if n.key = key then n.setVal val else n) = rest := by
        conv_rhs => rw [← List.map_id rest]
        apply List.map_congr_left
        intro n hmem
        simp [hrest n hmem]
      simp [insertChain, hk, hmap]
    · have h2 : key ∈ keys rest := by
        simp only [keys, List.map_cons, List.mem_cons] at h ⊢
        rcases h with e | e
        · exact absurd e.symm hk
        · exact e
      simp [insertChain, hk, ih hn.2 h2]

theorem removeChain_split (key : Int) (c : Chain) (h : key ∈ keys c) :
    ∃ pre n post, c = pre ++ n :: post ∧ n.key = key ∧ key ∉ keys pre ∧
      (removeChain key c).1 = pre ++ post := by
  induction c with
  | nil => simp [keys] at h
  | cons cur rest ih =>
    by_cases hk : cur.key = key
    · exact ⟨[], cur, rest, by simp, hk, by simp [keys], by simp [removeChain, hk]⟩
    · have h2 : key ∈ keys rest := by
        simp only [keys, List.map_cons, List.mem_cons] at h ⊢
        rcases h with e | e
        · exact absurd e.symm hk
        · exact e
      obtain ⟨pre, n, post, hc, hn, hpre, hr⟩ := ih h2
      refine ⟨cur :: pre, n, post, by simp [hc], hn, ?_, by simp [removeChain, hk, hr]⟩
      simp only [keys, List.map_cons, List.mem_cons, not_or]
      exact ⟨fun e => hk e.symm, hpre⟩

theorem getChain_removeChain_other (key other : Int) (c : Chain) (h : other ≠ key) :
    getChain other (removeChain key c).1 = getChain other c := by
  induction c with
  | nil => simp [removeChain]
  | cons cur rest ih =>
    by_cases hk : cur.key = key
    · have : ¬ key = other := fun e => h e.symm
      simp [removeChain, getChain, hk, this]
    · by_cases ho : cur.key = other
      · subst ho
        simp [removeChain, getChain, hk]
      · simp [removeChain, getChain, hk, ho, ih]

theorem removeChain_append_new (key : Int) (val : String) (c : Chain) (h : key ∉ keys c) :
    removeChain key (c ++ [⟨key, val⟩]) = (c, msgRemoved) := by
  induction c with
  | nil => simp [removeChain]
  | cons cur rest ih =>
    have h1 : cur.key ≠ key := fun e => h (by simp [keys, e])
    have h2 : key ∉ keys rest := fun e => h (by simp [keys] at e ⊢; exact Or.inr e)
    simp [removeChain, h1, ih h2]

/-! ## More on the operations at keys whose hash is a valid slot -/

theorem not_present_of_no_slot (m : HashMap) (key : Int) (hm : Inv m)
    (h : bucketIndex (hash_function key) = none) : ¬ m.present key := by
  intro hp
  obtain ⟨i, hi, _⟩ := present_slot m key hm hp
  rw [h] at hi
  exact absurd hi (by simp)

theorem present_iff_mem_slot (m : HashMap) (key : Int) (i : Fin 20) (hm : Inv m)
    (hi : bucketIndex (hash_function key) = some i) :
    m.present key ↔ key ∈ keys (m.buckets i) := by
  constructor
  · intro hp
    obtain ⟨j, hj, hk⟩ := present_slot m key hm hp
    have hji : j = i := Option.some.inj (hj.symm.trans hi)
    rw [← hji]
    exact hk
  · intro hk
    exact (present_iff m key).mpr ⟨i, hk⟩

/-- At a key whose hash is a valid slot, `insert` prints the update notice when
the key was present and the insertion notice when it was not. -/
theorem insert_status (m : HashMap) (key : Int) (val : String) (i : Fin 20) (hm : Inv m)
    (hi : bucketIndex (hash_function key) = some i) :
    ∃ m1 s, m.insert key val = some (m1, s) ∧
      (s = msgUpdated ↔ m.present key) ∧ (s = msgInserted ↔ ¬ m.present key) := by
  refine ⟨_, _, insert_eq m key val i hi, ?_, ?_⟩
  · rw [insertChain_status, present_iff_mem_slot m key i hm hi]
    by_cases h : key ∈ keys (m.buckets i)
    · simp [h]
    · simp only [h, if_false, iff_false]
      decide
  · rw [insertChain_status, present_iff_mem_slot m key i hm hi]
    by_cases h : key ∈ keys (m.buckets i)
    · simp only [h, if_true, not_true_eq_false, iff_false]
      decide
    · simp [h]

/-- At a key whose hash is a valid slot, `remove` prints the deletion notice when
the key was present and the not-found notice when it was not. -/
theorem remove_status (m : HashMap) (key : Int) (i : Fin 20) (hm : Inv m)
    (hi : bucketIndex (hash_function key) = some i) :
    ∃ m1 s, m.remove key = some (m1, s) ∧
      (s = msgRemoved ↔ m.present key) ∧ (s = msgRemoveNotFound ↔ ¬ m.present key) := by
  refine ⟨_, _, remove_eq m key i hi, ?_, ?_⟩
  · rw [removeChain_status, present_iff_mem_slot m key i hm hi]
    by_cases h : key ∈ keys (m.buckets i)
    · simp [h]
    · simp only [h, if_false, iff_false]
      decide
  · rw [removeChain_status, present_iff_mem_slot m key i hm hi]
    by_cases h : key ∈ keys (m.buckets i)
    · simp only [h, if_true, not_true_eq_false, iff_false]
      decide
    · simp [h]

/-- On the newly constructed map, at a key whose hash is a valid slot, `get` and
`remove` take their not-found branches and `remove` changes nothing. -/
theorem empty_get_remove (key : Int) (i : Fin 20)
    (hi : bucketIndex (hash_function key) = some i) :
    HashMap.empty.get key = some ⟨msgGetNotFound, ""⟩ ∧
    HashMap.empty.remove key = some (HashMap.empty, msgRemoveNotFound) := by
  have ha : ¬ HashMap.empty.present key := by
    intro hp
    obtain ⟨j, hj⟩ := (present_iff _ _).mp hp
    simp [HashMap.empty, keys] at hj
  refine ⟨?_, remove_absent HashMap.empty key i hi ha⟩
  rw [get_eq _ key i hi]
  rfl

/-! ## The claims, continued -/

/-- C11 (insert status), evaluated on the table built by `main` at the key with
numeric code -2, the `char` 0xFE where `char` is signed: the key has no entry,
its hash -2 designates no bucket, and `insert` reads outside the bucket array
instead of printing the insertion notice. -/
theorem C11_insert_status_negative_key :
    isCharCode true (-2) ∧ Reachable mainMap ∧ ¬ mainMap.present (-2) ∧
    hash_function (-2) = -2 ∧ (mainMap.insert (-2) "v").map Prod.snd = none :=
  ⟨by decide, reachable_mainMap,
   not_present_of_no_slot mainMap (-2) (inv_of_reachable _ reachable_mainMap) (by decide),
   by decide, rfl⟩

/-- C12 (remove status), evaluated on the table built by `main` at the key with
numeric code -4, the `char` 0xFC where `char` is signed: the key has no entry,
its hash -4 designates no bucket, and `remove` reads outside the bucket array
instead of printing the not-found notice. -/
theorem C12_remove_status_negative_key :
    isCharCode true (-4) ∧ Reachable mainMap ∧ ¬ mainMap.present (-4) ∧
    hash_function (-4) = -4 ∧ (mainMap.remove (-4)).map Prod.snd = none :=
  ⟨by decide, reachable_mainMap,
   not_present_of_no_slot mainMap (-4) (inv_of_reachable _ reachable_mainMap) (by decide),
   by decide, rfl⟩

/-- C13 (empty at construction), evaluated at the key with numeric code -5, the
`char` 0xFB where `char` is signed: every chain of the newly constructed map is
empty, but `get` and `remove` at that key read outside the bucket array
instead of taking their not-found branches. -/
theorem C13_empty_map_negative_key :
    (∀ i, HashMap.empty.buckets i = []) ∧ isCharCode true (-5) ∧
    hash_function (-5) = -5 ∧ HashMap.empty.get (-5) = none ∧
    (HashMap.empty.remove (-5)).map Prod.snd = none :=
  ⟨fun _ => rfl, by decide, by decide, rfl, rfl⟩

/-! ## Teardown -/

theorem chainAt_length (nodes : Nat → Option Cell) (c : Chain) (addrs : List Nat)
    (h : ChainAt nodes c addrs) : addrs.length = c.length := by
  induction c generalizing addrs with
  | nil =>
    cases addrs with
    | nil => rfl
    | cons a more => exact absurd h (by simp [ChainAt])
  | cons n rest ih =>
    cases addrs with
    | nil => exact absurd h (by simp [ChainAt])
    | cons a more =>
      simp only [ChainAt] at h
      simp [ih more h.2]

theorem chainAt_congr (nodes nodes2 : Nat → Option Cell) (c : Chain) (addrs : List Nat)
    (hc : ∀ a ∈ addrs, nodes2 a = nodes a) (h : ChainAt nodes c addrs) :
    ChainAt nodes2 c addrs := by
  induction c generalizing addrs with
  | nil =>
    cases addrs with
    | nil => trivial
    | cons a more => exact absurd h (by simp [ChainAt])
  | cons n rest ih =>
    cases addrs with
    | nil => exact absurd h (by simp [ChainAt])
    | cons a more =>
      simp only [ChainAt] at h ⊢
      refine ⟨?_, ih more (fun b hb => hc b (List.mem_cons_of_mem _ hb)) h.2⟩
      rw [hc a (List.mem_cons_self _ _)]
      exact h.1

/-- The inner loop on a chain laid out at distinct addresses, with fuel for every
node: it returns, deletes exactly those addresses in chain order, and leaves
every other node as it was. -/
theorem freeChain_spec (c : Chain) (addrs : List Nat) (nodes : Nat → Option Cell)
    (fuel : Nat) (h : ChainAt nodes c addrs) (hn : addrs.Nodup) (hf : addrs.length ≤ fuel) :
    freeChain fuel nodes addrs.head? =
      some (fun a => if a ∈ addrs then none else nodes a, addrs) := by
  induction c generalizing addrs nodes fuel with
  | nil =>
    cases addrs with
    | nil => simp [freeChain]
    | cons a more => exact absurd h (by simp [ChainAt])
  | cons n rest ih =>
    cases addrs with
    | nil => exact absurd h (by simp [ChainAt])
    | cons a more =>
      cases fuel with
      | zero => simp at hf
      | succ f =>
        simp only [ChainAt] at h
        rw [List.nodup_cons] at hn
        have hrest : ChainAt (Function.update nodes a none) rest more := by
          apply chainAt_congr nodes _ rest more _ h.2
          intro b hb
          have : b ≠ a := fun e => hn.1 (e ▸ hb)
          exact Function.update_noteq this _ _
        have hih := ih more (Function.update nodes a none) f hrest hn.2
          (by simp only [List.length_cons] at hf; omega)
        simp only [List.head?_cons, freeChain, h.1, hih, Option.some.injEq, Prod.mk.injEq,
          and_true]
        funext b
        by_cases hb : b ∈ more
        · simp [hb]
        · by_cases hba : b = a
          · subst hba
            simp
          · simp [hb, hba, Function.update_noteq hba]

/-- The outer loop over distinct indices whose chains are laid out at pairwise
disjoint addresses: it returns, deletes exactly the addresses of those chains,
slot by slot, and nulls the visited head pointers. -/
theorem destroyFrom_spec (fuel : Nat) (m : HashMap) (addrs : Fin 20 → List Nat)
    (l : List (Fin 20)) (nodes : Nat → Option Cell) (heads : Fin 20 → Option Nat)
    (hl : l.Nodup) (hd : ((l.map addrs).flatten).Nodup)
    (h : ∀ i ∈ l, ChainAt nodes (m.buckets i) (addrs i) ∧ heads i = (addrs i).head? ∧
      (addrs i).length ≤ fuel) :
    destroyFrom fuel nodes heads l =
      some (fun a => if a ∈ (l.map addrs).flatten then none else nodes a,
            fun j => if j ∈ l then none else heads j,
            ((l.map addrs).flatten).map Freed.node) := by
  induction l generalizing nodes heads with
  | nil =>
    simp [destroyFrom]
  | cons i rest ih =>
    rw [List.nodup_cons] at hl
    simp only [List.map_cons, List.flatten_cons] at hd
    rw [List.nodup_append] at hd
    obtain ⟨hdi, hdr, hdisj⟩ := hd
    obtain ⟨hci, hhi, hfi⟩ := h i (List.mem_cons_self _ _)
    have hfree := freeChain_spec (m.buckets i) (addrs i) nodes fuel hci hdi hfi
    rw [← hhi] at hfree
    have hrest : ∀ j ∈ rest,
        ChainAt (fun a => if a ∈ addrs i then none else nodes a) (m.buckets j) (addrs j) ∧
        Function.update heads i none j = (addrs j).head? ∧ (addrs j).length ≤ fuel := by
      intro j hj
      obtain ⟨hcj, hhj, hfj⟩ := h j (List.mem_cons_of_mem _ hj)
      have hji : j ≠ i := fun e => hl.1 (e ▸ hj)
      refine ⟨?_, ?_, hfj⟩
      · apply chainAt_congr nodes _ _ _ _ hcj
        intro a ha
        have hmem : a ∈ (rest.map addrs).flatten :=
          List.mem_flatten.mpr ⟨addrs j, List.mem_map_of_mem addrs hj, ha⟩
        have : a ∉ addrs i := fun hai => hdisj hai hmem
        simp [this]
      · rw [Function.update_noteq hji]
        exact hhj
    have hih := ih (fun a => if a ∈ addrs i then none else nodes a)
      (Function.update heads i none) hl.2 hdr hrest
    simp only [destroyFrom, hfree, hih, List.map_cons, List.flatten_cons, List.map_append,
      Option.some.injEq, Prod.mk.injEq, and_true]
    constructor
    · funext a
      by_cases h1 : a ∈ (rest.map addrs).flatten
      · simp [h1]
      · by_cases h2 : a ∈ addrs i
        · simp [h2]
        · simp [h1, h2]
    · funext j
      by_cases h1 : j ∈ rest
      · simp [h1]
      · by_cases h2 : j = i
        · subst h2
          simp
        · simp [h1, h2, Function.update_noteq h2]

theorem allAddrs_length (nodes : Nat → Option Cell) (m : HashMap)
    (addrs : Fin 20 → List Nat) (h : ∀ i, ChainAt nodes (m.buckets i) (addrs i)) :
    (allAddrs addrs).length = m.entries.length := by
  unfold allAddrs HashMap.entries
  rw [List.length_flatten, List.length_flatten, List.map_ofFn, List.map_ofFn]
  congr 2
  funext i
  exact chainAt_length nodes _ _ (h i)

/-- C14 (teardown): on every memory that holds a table as chains laid out at
distinct addresses, the destructor, given fuel for the longest chain, returns;
its releases are the node addresses of chain 0, chain 1, ..., chain 19, each
chain front to back, followed by the bucket array as the last release; no
release occurs twice; there are as many node releases as the table has
entries; and afterwards no node is live and the bucket array is gone. -/
theorem C14_teardown (s : Store) (m : HashMap) (addrs : Fin 20 → List Nat) (fuel : Nat)
    (h : Represents s m addrs) (hf : ∀ i, (m.buckets i).length ≤ fuel) :
    ∃ s1 tr, s.destroy fuel = some (s1, tr) ∧
      tr = (allAddrs addrs).map Freed.node ++ [Freed.bucketArray] ∧
      tr.Nodup ∧ tr.length = m.entries.length + 1 ∧
      (∀ a, s1.nodes a = none) ∧ s1.heads = none := by
  obtain ⟨⟨heads, hheads, hhd⟩, hchains, hnd, hlive⟩ := h
  have hnd2 : (((List.finRange 20).map addrs).flatten).Nodup := by
    rw [← List.ofFn_eq_map]
    exact hnd
  have hspec := destroyFrom_spec fuel m addrs (List.finRange 20) s.nodes heads
    (List.nodup_finRange 20) hnd2
    (fun i _ => ⟨hchains i, hhd i, by rw [chainAt_length _ _ _ (hchains i)]; exact hf i⟩)
  rw [← List.ofFn_eq_map] at hspec
  have hrun : s.destroy fuel =
      some (⟨fun a => if a ∈ allAddrs addrs then none else s.nodes a, none⟩,
            (allAddrs addrs).map Freed.node ++ [Freed.bucketArray]) := by
    simp only [Store.destroy, hheads, hspec, allAddrs]
  refine ⟨_, _, hrun, rfl, ?_, ?_, ?_, rfl⟩
  · rw [List.nodup_append]
    refine ⟨?_, List.nodup_singleton _, ?_⟩
    · apply List.Nodup.map _ hnd
      intro a b hab
      exact Freed.node.inj hab
    · intro x hx hy
      obtain ⟨a, _, ha⟩ := List.mem_map.mp hx
      rw [List.mem_singleton] at hy
      rw [hy] at ha
      exact absurd ha (by simp)
  · rw [List.length_append, List.length_map, List.length_singleton]
    exact congrArg (· + 1) (allAddrs_length s.nodes m addrs hchains)
  · intro a
    simp only
    by_cases ha : a ∈ allAddrs addrs
    · simp [ha]
    · simp only [ha, if_false]
      exact hlive a ha

theorem chainAt_of_lookup (nodes : Nat → Option Cell) (f : Nat → Nat) (ch : Chain)
    (hlook : ∀ (q : Nat) (n : Node), ch[q]? = some n →
      nodes (f q) = some ⟨n.key, n.val, if q + 1 < ch.length then some (f (q + 1)) else none⟩)
    (rest : Chain) (p : Nat) (hdrop : ch.drop p = rest) :
    ChainAt nodes rest ((List.range' p rest.length).map f) := by
  induction rest generalizing p with
  | nil => simp [ChainAt]
  | cons n more ih =>
    have hp : ch[p]? = some n := by
      have := congrArg List.head? hdrop
      simpa [List.head?_drop] using this
    have hmore : ch.drop (p + 1) = more := by
      have := congrArg List.tail hdrop
      simpa [List.tail_drop] using this
    have hlen : ch.length = p + 1 + more.length := by
      have := congrArg List.length hdrop
      simp only [List.length_drop, List.length_cons] at this
      have hlt : p < ch.length := by
        by_contra hge
        rw [List.getElem?_eq_none (by omega)] at hp
        exact absurd hp (by simp)
      omega
    simp only [List.length_cons, List.range'_succ, List.map_cons, ChainAt]
    refine ⟨?_, ih (p + 1) hmore⟩
    rw [hlook p n hp]
    cases more with
    | nil =>
      have : ¬ p + 1 < ch.length := by simp at hlen; omega
      simp [this]
    | cons n2 more2 =>
      have : p + 1 < ch.length := by simp at hlen; omega
      simp [this, List.range'_succ]

/-- Every table has a memory that holds it: the standard layout. -/
theorem represents_layout (m : HashMap) : Represents (layoutStore m) m (layoutAddrs m) := by
  have hslot : ∀ (q : Nat) (i : Fin 20), slotOf (20 * q + (i : Nat)) = i := by
    intro q i
    apply Fin.ext
    simp only [slotOf]
    omega
  have hdiv : ∀ (q : Nat) (i : Fin 20), (20 * q + (i : Nat)) / 20 = q := by
    intro q i
    omega
  refine ⟨⟨_, rfl, fun _ => rfl⟩, ?_, ?_, ?_⟩
  · intro i
    apply chainAt_of_lookup (layoutNodes m) (fun p => 20 * p + (i : Nat)) (m.buckets i) _
      (m.buckets i) 0 (by simp)
    intro q n hq
    simp only [layoutNodes, hslot, hdiv, hq]
    have : 20 * q + (i : Nat) + 20 = 20 * (q + 1) + (i : Nat) := by ring
    rw [this]
  · unfold allAddrs
    rw [List.nodup_flatten]
    constructor
    · intro l hl
      obtain ⟨i, rfl⟩ := (List.mem_ofFn _ _).mp hl
      apply List.Nodup.map _ (List.nodup_range' 0 _)
      intro a b hab
      simp only at hab
      omega
    · rw [List.pairwise_ofFn]
      intro i j hij a hai haj
      simp only [layoutAddrs, List.mem_map] at hai haj
      obtain ⟨p, _, hp⟩ := hai
      obtain ⟨q, _, hq⟩ := haj
      have h1 := i.isLt
      have h2 := j.isLt
      have h3 : (i : Nat) < (j : Nat) := hij
      omega
  · intro a ha
    show layoutNodes m a = none
    unfold layoutNodes
    cases hlook : (m.buckets (slotOf a))[a / 20]? with
    | none => rfl
    | some n =>
      exfalso
      apply ha
      have hlt : a / 20 < (m.buckets (slotOf a)).length := by
        by_contra hge
        rw [List.getElem?_eq_none (by omega)] at hlook
        exact absurd hlook (by simp)
      unfold allAddrs
      rw [List.mem_flatten]
      refine ⟨layoutAddrs m (slotOf a), (List.mem_ofFn _ _).mpr ⟨slotOf a, rfl⟩, ?_⟩
      simp only [layoutAddrs, List.mem_map, List.mem_range']
      refine ⟨a / 20, ⟨a / 20, hlt, by simp⟩, ?_⟩
      simp only [slotOf]
      omega

theorem represents_init : Represents Store.init HashMap.empty (fun _ => []) := by
  refine ⟨⟨_, rfl, fun _ => rfl⟩, fun _ => trivial, by decide, fun _ _ => rfl⟩

theorem represents_mainStore : Represents mainStore mainMap mainAddrs := by
  refine ⟨⟨_, rfl, by decide⟩, by decide, by decide, ?_⟩
  intro a ha
  have hall : allAddrs mainAddrs = [1, 4, 5, 6, 3, 2] := by decide
  rw [hall] at ha
  simp only [List.mem_cons, List.mem_singleton, List.not_mem_nil, or_false, not_or] at ha
  simp [mainStore, ha]

theorem C14_teardown_witness :
    Represents mainStore mainMap mainAddrs ∧ (∀ i, (mainMap.buckets i).length ≤ 2) ∧
    ∃ s1 tr, mainStore.destroy 2 = some (s1, tr) ∧
      tr = (allAddrs mainAddrs).map Freed.node ++ [Freed.bucketArray] ∧
      tr.Nodup ∧ tr.length = mainMap.entries.length + 1 ∧
      (∀ a, s1.nodes a = none) ∧ s1.heads = none :=
  ⟨represents_mainStore, by decide,
   C14_teardown mainStore mainMap mainAddrs 2 represents_mainStore (by decide)⟩

/-- C15 (bucket placement): after every sequence of `insert` and `remove` calls
on the newly constructed map, every node in the chain of slot `i` has a key
whose hash is `i`. -/
theorem C15_bucket_placement (ops : List Op) (m : HashMap)
    (h : HashMap.empty.run ops = some m) :
    ∀ (i : Fin 20) (n : Node), n ∈ m.buckets i → hash_function n.key = ((i : Nat) : Int) := by
  intro i n hn
  have hm : Inv m := inv_of_reachable m ⟨ops, h⟩
  exact (bucketIndex_eq_some_iff _ i).mp ((hm i).2 n hn)

theorem C15_bucket_placement_witness :
    HashMap.empty.run mainOps = some mainMap ∧
    ∀ (i : Fin 20) (n : Node), n ∈ mainMap.buckets i →
      hash_function n.key = ((i : Nat) : Int) :=
  ⟨rfl, C15_bucket_placement mainOps mainMap rfl⟩

/-- At a key whose hash is a valid slot and that has no entry, `insert` links the
new node behind the last node of the chain of that slot and changes no other
chain. -/
theorem insert_absent (m : HashMap) (key : Int) (val : String) (i : Fin 20)
    (hi : bucketIndex (hash_function key) = some i) (ha : ¬ m.present key) :
    m.insert key val =
      some (⟨Function.update m.buckets i (m.buckets i ++ [⟨key, val⟩])⟩, msgInserted) := by
  have hk : key ∉ keys (m.buckets i) := fun e => ha ((present_iff m key).mpr ⟨i, e⟩)
  rw [insert_eq m key val i hi, insertChain_of_absent key val _ hk]

/-- At a key whose hash is a valid slot and that has no entry, `insert` followed
by `remove` gives back the table it started from. -/
theorem insert_remove_absent (m : HashMap) (key : Int) (val : String) (i : Fin 20)
    (hi : bucketIndex (hash_function key) = some i) (ha : ¬ m.present key) :
    ∃ m1, m.insert key val = some (m1, msgInserted) ∧
      m1.remove key = some (m, msgRemoved) := by
  have hk : key ∉ keys (m.buckets i) := fun e => ha ((present_iff m key).mpr ⟨i, e⟩)
  refine ⟨_, insert_absent m key val i hi ha, ?_⟩
  rw [remove_eq _ key i hi]
  simp only [Function.update_same, removeChain_append_new key val _ hk,
    Function.update_idem, Function.update_eq_self]

/-- C16 (tail append), evaluated on the table built by `main` at the key with
numeric code -6, the `char` 0xFA where `char` is signed: the key has no entry,
its hash -6 is the index of no bucket, and `insert` yields no table instead of
a chain extended by the new entry. -/
theorem C16_tail_append_negative_key :
    isCharCode true (-6) ∧ ¬ mainMap.present (-6) ∧ hash_function (-6) = -6 ∧
    bucketIndex (hash_function (-6)) = none ∧
    (mainMap.insert (-6) "v").map Prod.fst = none :=
  ⟨by decide,
   not_present_of_no_slot mainMap (-6) (inv_of_reachable _ reachable_mainMap) (by decide),
   by decide, by decide, rfl⟩

/-- C17 (update in place): on every reachable map, `insert` of a key that is
present returns with the update notice; the chain of the key's slot is the old
chain with the value of the node carrying the key replaced and every other
node untouched, so it has the same keys in the same order and the same length;
every other chain is unchanged. -/
theorem C17_update_in_place (m : HashMap) (key : Int) (val : String) (hr : Reachable m)
    (hp : m.present key) :
    ∃ (i : Fin 20) (m1 : HashMap), hash_function key = ((i : Nat) : Int) ∧
      m.insert key val = some (m1, msgUpdated) ∧
      m1.buckets i = (m.buckets i).map (fun n => if n.key = key then ⟨n.key, val⟩ else n) ∧
      keys (m1.buckets i) = keys (m.buckets i) ∧
      (m1.buckets i).length = (m.buckets i).length ∧
      ∀ j, j ≠ i → m1.buckets j = m.buckets j := by
  have hm : Inv m := inv_of_reachable m hr
  obtain ⟨i, hi, hk⟩ := present_slot m key hm hp
  have hins := insert_eq m key val i hi
  rw [insertChain_status, if_pos hk, insertChain_of_present key val _ (hm i).1 hk] at hins
  refine ⟨i, _, (bucketIndex_eq_some_iff _ i).mp hi, hins, ?_, ?_, ?_, ?_⟩
  · simp only [Function.update_same, Node.setVal]
  · simp only [Function.update_same, keys, List.map_map]
    apply List.map_congr_left
    intro n _
    by_cases h : n.key = key
    · simp [h, Node.setVal]
    · simp [h]
  · simp only [Function.update_same, List.length_map]
  · intro j hj
    simp only [Function.update_noteq hj]

theorem C17_update_in_place_witness :
    Reachable mainMap ∧ mainMap.present 88 ∧
    ∃ (i : Fin 20) (m1 : HashMap), hash_function 88 = ((i : Nat) : Int) ∧
      mainMap.insert 88 "new" = some (m1, msgUpdated) ∧
      m1.buckets i =
        (mainMap.buckets i).map (fun n => if n.key = 88 then ⟨n.key, "new"⟩ else n) ∧
      keys (m1.buckets i) = keys (mainMap.buckets i) ∧
      (m1.buckets i).length = (mainMap.buckets i).length ∧
      ∀ j, j ≠ i → m1.buckets j = mainMap.buckets j :=
  ⟨reachable_mainMap,
   (present_iff mainMap 88).mpr ⟨8, by decide⟩,
   C17_update_in_place mainMap 88 "new" reachable_mainMap
     ((present_iff mainMap 88).mpr ⟨8, by decide⟩)⟩

/-- C18 (unlink preserves the rest): on every reachable map, `remove` of a key
that is present returns with the deletion notice; the chain of the key's slot
splits as `pre ++ n :: post` with `n` the node carrying the key, and becomes
`pre ++ post`; every other chain is unchanged; and `get` of every other key
has the same outcome as before. -/
theorem C18_unlink_preserves_rest (m : HashMap) (key : Int) (hr : Reachable m)
    (hp : m.present key) :
    ∃ (i : Fin 20) (m1 : HashMap) (pre : Chain) (n : Node) (post : Chain),
      hash_function key = ((i : Nat) : Int) ∧
      m.remove key = some (m1, msgRemoved) ∧
      m.buckets i = pre ++ n :: post ∧ n.key = key ∧ key ∉ keys pre ∧ key ∉ keys post ∧
      m1.buckets i = pre ++ post ∧
      (∀ j, j ≠ i → m1.buckets j = m.buckets j) ∧
      ∀ other, other ≠ key → m1.get other = m.get other := by
  have hm : Inv m := inv_of_reachable m hr
  obtain ⟨i, hi, hk⟩ := present_slot m key hm hp
  have hrem := remove_eq m key i hi
  rw [removeChain_of_present key _ hk] at hrem
  obtain ⟨pre, n, post, hc, hn, hpre, hsplit⟩ := removeChain_split key _ hk
  have hpost : key ∉ keys post := by
    have hnd := (hm i).1
    rw [hc] at hnd
    simp only [keys, List.map_append, List.map_cons] at hnd
    have h2 := (List.nodup_append.mp hnd).2.1
    rw [List.nodup_cons, hn] at h2
    exact h2.1
  refine ⟨i, _, pre, n, post, (bucketIndex_eq_some_iff _ i).mp hi, hrem, hc, hn, hpre,
    hpost, ?_, ?_, ?_⟩
  · simp only [Function.update_same, hsplit]
  · intro j hj
    simp only [Function.update_noteq hj]
  · intro other hne
    unfold HashMap.get
    cases hj : bucketIndex (hash_function other) with
    | none => rfl
    | some j =>
      simp only
      by_cases hji : j = i
      · subst hji
        rw [Function.update_same, getChain_removeChain_other key other _ hne]
      · rw [Function.update_noteq hji]

theorem C18_unlink_preserves_rest_witness :
    Reachable mainMap ∧ mainMap.present 68 ∧
    ∃ (i : Fin 20) (m1 : HashMap) (pre : Chain) (n : Node) (post : Chain),
      hash_function 68 = ((i : Nat) : Int) ∧
      mainMap.remove 68 = some (m1, msgRemoved) ∧
      mainMap.buckets i = pre ++ n :: post ∧ n.key = 68 ∧ 68 ∉ keys pre ∧ 68 ∉ keys post ∧
      m1.buckets i = pre ++ post ∧
      (∀ j, j ≠ i → m1.buckets j = mainMap.buckets j) ∧
      ∀ other, other ≠ 68 → m1.get other = mainMap.get other :=
  ⟨reachable_mainMap,
   (present_iff mainMap 68).mpr ⟨8, by decide⟩,
   C18_unlink_preserves_rest mainMap 68 reachable_mainMap
     ((present_iff mainMap 68).mpr ⟨8, by decide⟩)⟩

/-! ## Refinement of the abstract map -/

theorem sim_step (m m1 : HashMap) (a : AbsMap) (op : Op) (hm : Inv m)
    (hs : ∀ k i, bucketIndex (hash_function k) = some i →
      getChain k (m.buckets i) = getResultOf (a k))
    (h : m.step op = some m1) :
    ∀ k i, bucketIndex (hash_function k) = some i →
      getChain k (m1.buckets i) = getResultOf (absStep a op k) := by
  intro k i hki
  cases op with
  | insert key val =>
    cases hins : m.insert key val with
    | none => simp [HashMap.step, hins] at h
    | some r =>
      simp only [HashMap.step, hins, Option.map_some', Option.some.injEq] at h
      subst h
      obtain ⟨i0, hi0, hb, _⟩ := slot_of_insert m r.1 key val r.2 hins
      simp only [absStep]
      by_cases hk : k = key
      · subst hk
        have : i = i0 := Option.some.inj (hki.symm.trans hi0)
        subst this
        rw [hb, Function.update_same, Function.update_same, getChain_insertChain_same]
        rfl
      · rw [Function.update_noteq hk, ← hs k i hki, hb]
        by_cases hii : i = i0
        · subst hii
          rw [Function.update_same, getChain_insertChain_other key k val _ hk]
        · rw [Function.update_noteq hii]
  | remove key =>
    cases hrem : m.remove key with
    | none => simp [HashMap.step, hrem] at h
    | some r =>
      simp only [HashMap.step, hrem, Option.map_some', Option.some.injEq] at h
      subst h
      obtain ⟨i0, hi0, hb, _⟩ := slot_of_remove m r.1 key r.2 hrem
      simp only [absStep]
      by_cases hk : k = key
      · subst hk
        have : i = i0 := Option.some.inj (hki.symm.trans hi0)
        subst this
        rw [hb, Function.update_same, Function.update_same,
          getChain_of_absent k _ (not_mem_keys_removeChain k _ (hm i).1)]
        rfl
      · rw [Function.update_noteq hk, ← hs k i hki, hb]
        by_cases hii : i = i0
        · subst hii
          rw [Function.update_same, getChain_removeChain_other key k _ hk]
        · rw [Function.update_noteq hii]

theorem sim_run (ops : List Op) (m m1 : HashMap) (a : AbsMap) (hm : Inv m)
    (hs : ∀ k i, bucketIndex (hash_function k) = some i →
      getChain k (m.buckets i) = getResultOf (a k))
    (h : m.run ops = some m1) :
    ∀ k i, bucketIndex (hash_function k) = some i →
      getChain k (m1.buckets i) = getResultOf (absRun a ops k) := by
  induction ops generalizing m a with
  | nil =>
    simp only [HashMap.run, Option.some.injEq] at h
    subst h
    exact hs
  | cons op ops ih =>
    simp only [HashMap.run, Option.bind_eq_some] at h
    obtain ⟨m2, h2, h3⟩ := h
    exact ih m2 (absStep a op) (inv_step m m2 op hm h2) (sim_step m m2 a op hm hs h2) h3

/-- After a sequence of calls that runs to the end, `get` at a key whose hash is
a valid slot reports exactly what the abstract map replayed over the same
calls holds for that key. -/
theorem get_refines (ops : List Op) (m : HashMap) (h : HashMap.empty.run ops = some m)
    (k : Int) (i : Fin 20) (hi : bucketIndex (hash_function k) = some i) :
    m.get k = some (getResultOf (absRun absEmpty ops k)) := by
  rw [get_eq m k i hi]
  congr 1
  refine sim_run ops HashMap.empty m absEmpty inv_empty ?_ h k i hi
  intro k2 i2 _
  rfl

/-- C19 (refinement), evaluated after the eight `insert` calls of `main` at the
key with numeric code -10, the `char` 0xF6 where `char` is signed: the abstract
map has no binding for the key, for which `get` would have to report
not-found, but its hash -10 designates no bucket and `get` reads outside the
bucket array. -/
theorem C19_refinement_negative_key :
    isCharCode true (-10) ∧ HashMap.empty.run mainOps = some mainMap ∧
    absRun absEmpty mainOps (-10) = none ∧
    getResultOf (absRun absEmpty mainOps (-10)) = ⟨msgGetNotFound, ""⟩ ∧
    hash_function (-10) = -10 ∧ mainMap.get (-10) = none :=
  ⟨by decide, rfl, by decide, by decide, by decide, rfl⟩

/-- C20 (insert then remove), evaluated on the table built by `main` at the key
with numeric code -7, the `char` 0xF9 where `char` is signed: the key has no
entry, its hash -7 designates no bucket, and `insert` followed by `remove`
yields no table, so in particular not the original one. -/
theorem C20_insert_remove_negative_key :
    isCharCode true (-7) ∧ Reachable mainMap ∧ ¬ mainMap.present (-7) ∧
    hash_function (-7) = -7 ∧
    ((mainMap.insert (-7) "v").bind (fun r => r.1.remove (-7))).map Prod.fst = none :=
  ⟨by decide, reachable_mainMap,
   not_present_of_no_slot mainMap (-7) (inv_of_reachable _ reachable_mainMap) (by decide),
   by decide, rfl⟩

end RammyMap
